import Mathlib

/-!
Shallow embedding of the wdoc query/summarize pipeline
(src/utils/tasks/query.py and src/DocToolsLLM/DocToolsLLM.py),
with theorems settling the behavioural claims about it.

Pure Python string operations are modelled over `List Char`
(ASCII approximation of Python's unicode classes where noted).
-/

namespace Wdoc

/-- Python `str.rstrip()`: drop trailing whitespace characters. -/
def rstripChars (cs : List Char) : List Char :=
  ((cs.reverse).dropWhile Char.isWhitespace).reverse

/-- Python `str.strip()`: drop leading and trailing whitespace characters. -/
def stripChars (cs : List Char) : List Char :=
  (rstripChars cs).dropWhile Char.isWhitespace

/-! ### parse_eval_output (src/utils/tasks/query.py lines 60-91) -/

/-- Possible outcomes of `parse_eval_output`: a returned digit string,
the `InvalidDocEvaluationByWeakLLM` exception, or the final bare
`raise Exception("Unexpected output ...")` at the end of the function. -/
inductive EvalParse where
  | ok (digit : String)
  | invalidEval
  | unexpectedError
deriving DecidableEq, Repr

/-- Translation of `parse_eval_output`:
`if not output.strip(): raise InvalidDocEvaluationByWeakLLM`;
`if "-" in output: raise`; `digits = [d for d in list(output) if d.isdigit()]`;
`if not digits: raise`; `elif len(digits) == 1:` return "0"/"1" or raise;
`elif "0" in digits and "1" in digits: raise`;
`elif "0" not in digits and "1" not in digits: raise`;
otherwise the trailing `raise Exception(...)`. -/
def parse_eval_output (output : String) : EvalParse :=
  if stripChars output.toList = [] then .invalidEval
  else if '-' ∈ output.toList then .invalidEval
  else if output.toList.filter Char.isDigit = [] then .invalidEval
  else if (output.toList.filter Char.isDigit).length = 1 then
    if (output.toList.filter Char.isDigit).headI = '0' then .ok "0"
    else if (output.toList.filter Char.isDigit).headI = '1' then .ok "1"
    else .invalidEval
  else if '0' ∈ output.toList.filter Char.isDigit ∧
          '1' ∈ output.toList.filter Char.isDigit then .invalidEval
  else if '0' ∉ output.toList.filter Char.isDigit ∧
          '1' ∉ output.toList.filter Char.isDigit then .invalidEval
  else .unexpectedError

/-! ### check_intermediate_answer (src/utils/tasks/query.py lines 21-30) -/

/-- A word character for Python's regex `\b` boundary (ASCII `\w`). -/
def wordChar (c : Char) : Bool := c.isAlphanum || c = '_'

/-- Does `"IRRELEVANT"` match at the head of `cs`, with a word boundary
right after the match (end of string or a non-word character)? -/
def irrAt (cs : List Char) : Bool :=
  ("IRRELEVANT".toList).isPrefixOf cs &&
    (match cs.drop ("IRRELEVANT".toList.length) with
     | [] => true
     | c :: _ => !wordChar c)

/-- Scan for `re.search(r"\bIRRELEVANT\b", ·)`: try every position, where
`prev` is the character just before the current position (boundary before
the match requires `prev` to be absent or a non-word character). -/
def searchIrrAux : Option Char → List Char → Bool
  | _, [] => false
  | prev, c :: cs =>
      ((match prev with | none => true | some p => !wordChar p) && irrAt (c :: cs))
      || searchIrrAux (some c) cs

/-- `re.search(r"\bIRRELEVANT\b", ans)` as a Boolean. -/
def containsIrrelevantWord (s : String) : Bool := searchIrrAux none s.toList

/-- Translation of `check_intermediate_answer`: returns `True` when
`((not re.search(r"\bIRRELEVANT\b", ans)) and len(ans) < len("IRRELEVANT") * 2)
or len(ans) >= len("IRRELEVANT") * 2`, else `False`. -/
def check_intermediate_answer (ans : String) : Bool :=
  if (!containsIrrelevantWord ans && decide (ans.length < "IRRELEVANT".length * 2))
      || decide (ans.length ≥ "IRRELEVANT".length * 2) then
    true
  else
    false

/-! ### refilter_docs (src/utils/tasks/query.py lines 33-58) -/

/-- A loaded langchain `Document`: page content plus the metadata fields
the pipeline reads (`metadata["hash"]`, `metadata["path"]`). -/
structure Doc where
  content : String
  hash : String
  path : String
deriving DecidableEq, Repr

/-- Exceptions raised by `refilter_docs` (`assertionError` models the
`assert len(unfiltered_docs) == len(evaluations)` guard). -/
inductive QueryError where
  | noDocumentsRetrieved
  | noDocumentsAfterWeakLLMFiltering
  | assertionError
deriving DecidableEq, Repr

/-- One entry of `evaluations`: the code accepts either a bare string or a
list of strings (`if not isinstance(evals, list): evals = [evals]`). -/
inductive Evals where
  | single (s : String)
  | multi (l : List String)
deriving DecidableEq, Repr

/-- The `evals = [evals]` normalisation. -/
def normEvals : Evals → List String
  | .single s => [s]
  | .multi l => l

/-- Python `str.isdigit()` (ASCII): non-empty and all characters digits. -/
def pyIsDigit (s : String) : Bool := !s.isEmpty && s.toList.all Char.isDigit

/-- Python `int(s)` on a digit string: decimal value. -/
def pyToInt (s : String) : Nat :=
  s.toList.foldl (fun n c => n * 10 + (c.toNat - 48)) 0

/-- The per-document keep decision of `refilter_docs`:
`if all(map(str.isdigit, evals)): keep iff sum(map(int, evals)) != 0`,
`else:` warn and keep. -/
def keepDoc (e : Evals) : Bool :=
  let evals := normEvals e
  if evals.all pyIsDigit then decide (((evals.map pyToInt).sum) ≠ 0)
  else true

/-- Translation of `refilter_docs`: assert equal lengths, raise
`NoDocumentsRetrieved` on an empty input list, keep each document whose
evaluations pass `keepDoc`, raise `NoDocumentsAfterWeakLLMFiltering` when
nothing remains, else return the filtered list. -/
def refilter_docs (unfiltered_docs : List Doc) (evaluations : List Evals) :
    Except QueryError (List Doc) :=
  if unfiltered_docs.length ≠ evaluations.length then .error .assertionError
  else if unfiltered_docs = [] then .error .noDocumentsRetrieved
  else if ((unfiltered_docs.zip evaluations).filter (fun p => keepDoc p.2)).map Prod.fst
      = [] then
    .error .noDocumentsAfterWeakLLMFiltering
  else
    .ok (((unfiltered_docs.zip evaluations).filter (fun p => keepDoc p.2)).map Prod.fst)

/-! ### Deduplication of loaded documents
(src/DocToolsLLM/DocToolsLLM.py lines 376-405) -/

/-- `hashes.count(h)` restricted to a document list. -/
def countHash (docs : List Doc) (h : String) : Nat :=
  (docs.filter (fun d => d.hash = h)).length

/-- The duplicate-removal loop: `counter` holds the remaining occurrence
count per hash (initialised to `hashes.count(h)`); a document is removed
(`self.loaded_docs[i] = None`, appended to `removed_docs`) while
`counter[h] > 1`, decrementing the counter. Returns
(kept documents, removed documents). -/
def dedupGo (counter : String → Nat) : List Doc → List Doc × List Doc
  | [] => ([], [])
  | d :: ds =>
    if counter d.hash > 1 then
      let r := dedupGo (fun h => if h = d.hash then counter h - 1 else counter h) ds
      (r.1, d :: r.2)
    else
      let r := dedupGo counter ds
      (d :: r.1, r.2)

/-- The whole deduplication pass:
`counter = {h: hashes.count(h) for h in uniq_hashes}` then the loop. -/
def dedupDocs (docs : List Doc) : List Doc × List Doc :=
  dedupGo (countHash docs) docs

/-- Reference predicate: the documents the loop keeps, characterised
structurally — a document is removed exactly when its hash occurs again
later in the list, so the last occurrence of each hash is kept. -/
def keepLast : List Doc → List Doc
  | [] => []
  | d :: ds => if 0 < countHash ds d.hash then keepLast ds else d :: keepLast ds

/-- Reference predicate: the documents the loop removes — exactly those
whose hash occurs again later in the list. -/
def removedDups : List Doc → List Doc
  | [] => []
  | d :: ds => if 0 < countHash ds d.hash then d :: removedDups ds else removedDups ds

/-- In the source, `removed_paths` is initialised to `[]` and no statement
ever appends to it (the loop appends removed documents to `removed_docs`
only), so it is the empty list at the intersection check. -/
def removedPaths (_docs : List Doc) : List String := []

/-- Outcome of the partial-amputation check after deduplication. -/
inductive LoadOutcome where
  | ok (docs : List Doc)
  | corpusError
deriving DecidableEq, Repr

/-- Translation of the post-dedup integrity check:
`present_path = [d.metadata["path"] for d in self.loaded_docs]`,
`intersect = set(removed_paths).intersection(set(present_path))`,
`if intersect: raise Exception()` else continue with the kept documents. -/
def checkAmputation (docs : List Doc) : LoadOutcome :=
  let kept := (dedupDocs docs).1
  let present_path := kept.map (fun d => d.path)
  let intersect := (removedPaths docs).inter present_path
  if intersect ≠ [] then .corpusError else .ok kept

/-! ### Summary-task budget enforcement
(src/DocToolsLLM/DocToolsLLM.py lines 448-458) -/

/-- What the budget check does: raise (`fatal`), log and continue
(`warnOnly`), or pass silently (`withinBudget`). -/
inductive BudgetOutcome where
  | fatal
  | warnOnly
  | withinBudget
deriving DecidableEq, Repr

/-- Python truthiness of `llms_api_bases["model"]` (default `None`,
otherwise a string). -/
def pyTruthy : Option String → Bool
  | none => false
  | some s => !s.isEmpty

/-- Translation of the enforcement branch of `_summary_task`:
`if estimate_dol > self.dollar_limit:` then
`if self.llms_api_bases["model"]: raise Exception(...)` else
`red("Cost estimate > limit but the api_base was modified so not crashing.")`. -/
def enforce_dollar_limit (estimate_dol dollar_limit : ℚ)
    (api_base_model : Option String) : BudgetOutcome :=
  if estimate_dol > dollar_limit then
    if pyTruthy api_base_model then .fatal
    else .warnOnly
  else .withinBudget

/-! ### Recursive-summary marker cleanup
(src/DocToolsLLM/DocToolsLLM.py lines 569-583) -/

/-- `summary_text.split("\n")` over characters. -/
def splitNl : List Char → List (List Char)
  | [] => [[]]
  | c :: cs =>
    if c = '\n' then [] :: splitNl cs
    else
      match splitNl cs with
      | [] => [[c]]
      | l :: ls => (c :: l) :: ls

/-- `"\n".join(...)` over characters. -/
def joinNl : List (List Char) → List Char
  | [] => []
  | [l] => l
  | l :: ls => l ++ '\n' :: joinNl ls

/-- The literal of the chunk-separator check `l.strip() == "- ---"`. -/
def sepLit : List Char := "- ---".toList

/-- The literal of `l.strip().startswith("- BEFORE RECURSION #")`. -/
def recMark : List Char := "- BEFORE RECURSION #".toList

/-- After the digits of `\d+`, the pattern `/\d+`: a `'/'` then one or
more digits. -/
def chunkSlashTail : List Char → Bool
  | [] => false
  | c :: rest2 => c = '/' && !(rest2.takeWhile Char.isDigit).isEmpty

/-- After the literal `"- Chunk "`, the pattern `\d+/\d+`: one or more
digits, then `'/'` and one or more digits. -/
def chunkNumTail (rest : List Char) : Bool :=
  !(rest.takeWhile Char.isDigit).isEmpty &&
    chunkSlashTail (rest.dropWhile Char.isDigit)

/-- Does `re.search(r"- Chunk \d+/\d+", l)` match at the head of `cs`:
the literal `"- Chunk "`, then one or more digits, `'/'`, one or more
digits. -/
def matchChunkAt (cs : List Char) : Bool :=
  ("- Chunk ".toList).isPrefixOf cs &&
    chunkNumTail (cs.drop ("- Chunk ".toList.length))

/-- `re.search(r"- Chunk \d+/\d+", l)`: try the pattern at every position. -/
def containsChunkMarker : List Char → Bool
  | [] => false
  | c :: cs => matchChunkAt (c :: cs) || containsChunkMarker cs

/-- The marking loop over the split lines: chunk-separator lines and
chunk-progress lines are set to `None` (dropped here); at a
"- BEFORE RECURSION #" line everything from it onward is set to `None`
and the loop breaks. -/
def cleanLines : List (List Char) → List (List Char)
  | [] => []
  | l :: ls =>
    if stripChars l = sepLit then cleanLines ls
    else if containsChunkMarker l then cleanLines ls
    else if recMark.isPrefixOf (stripChars l) then []
    else l :: cleanLines ls

/-- The whole cleanup over the line list:
`"\n".join([s.rstrip() for s in sp if s])` after marking — drops the
marked (`None`) lines and the empty lines, right-strips the rest. -/
def cleanupPass (ls : List (List Char)) : List (List Char) :=
  ((cleanLines ls).filter (fun l => !l.isEmpty)).map rstripChars

/-- Translation of the recursive-summary cleanup of `summary_text`:
split on newlines, mark and drop separator/chunk/recursion lines, drop
empty lines, right-strip survivors, rejoin with newlines. -/
def recursive_cleanup (t : String) : String :=
  String.mk (joinNl (cleanupPass (splitNl t.toList)))

/-! ### Hierarchical reduction of intermediate answers
(src/DocToolsLLM/DocToolsLLM.py lines 1372-1390) -/

/-- The batching loop body on `cur` (the last batch) and `acc` (the
finished batches): unusable answers are skipped; when the last batch is
full (`len(batches[-1]) >= batch_size`) a fresh batch is started; the
answer is then appended to the last batch (always possible since the last
batch is now below the size 5). -/
def addToBatches (acc : List (List String)) (cur : List String) :
    List String → List (List String)
  | [] => acc ++ [cur]
  | ia :: rest =>
    if check_intermediate_answer ia then
      if cur.length ≥ 5 then addToBatches (acc ++ [cur]) [ia] rest
      else addToBatches acc (cur ++ [ia]) rest
    else addToBatches acc cur rest

/-- `batches = [[]]; for ia in intermediate_answers: ...` with
`batch_size = 5`. -/
def mkBatches (answers : List String) : List (List String) :=
  addToBatches [] [] answers

/-- The `while len(intermediate_answers) > batch_size:` loop, with a fuel
argument for termination; `reduce` abstracts one `final_answer_chain`
call on a batch. Returns the remaining answers and the number of
reduction calls made inside the loop. -/
def reduceLoop (reduce : List String → String) :
    Nat → List String → List String × Nat
  | 0, answers => (answers, 0)
  | fuel + 1, answers =>
    if answers.length > 5 then
      let batches := mkBatches answers
      let r := reduceLoop reduce fuel (batches.map reduce)
      (r.1, batches.length + r.2)
    else (answers, 0)

/-- The loop followed by the single
`final_answer_chain.invoke({... intermediate_answers ...})` call on the
remaining answers: returns the final answer and the total number of
reduction calls. -/
def runReduction (reduce : List String → String) (fuel : Nat)
    (answers : List String) : String × Nat :=
  let r := reduceLoop reduce fuel answers
  (reduce r.1, r.2 + 1)

/-! ## Theorems -/

/-- C2: the budget-enforcement branch of `_summary_task` is inverted with
respect to its own log message: with a cost estimate above the limit it
raises fatally exactly when `llms_api_bases["model"]` IS overridden, and
merely logs (printing "the api_base was modified so not crashing") when
it is NOT overridden. Evaluated at estimate 10 > limit 1. -/
theorem budget_breach_with_override_is_fatal :
    enforce_dollar_limit 10 1 (some "http://localhost:1234") = .fatal
    ∧ enforce_dollar_limit 10 1 none = .warnOnly
    ∧ enforce_dollar_limit 1 10 (some "http://localhost:1234") = .withinBudget := by
  decide

/-- C9: the corpus-integrity (partial amputation) exception is
unreachable: `removed_paths` is never appended to, so the intersection
check is vacuous. Concretely, docs `a` (path x, hash h), `b` (path y,
hash h), `c` (path x, hash k): `a` is removed as a duplicate of `b`, its
path x is still present via `c` (the removed paths do intersect the
present paths), yet the outcome is `ok`, not a corpus error. -/
theorem amputation_check_never_fires :
    checkAmputation [⟨"a","h","x"⟩, ⟨"b","h","y"⟩, ⟨"c","k","x"⟩]
      = .ok [⟨"b","h","y"⟩, ⟨"c","k","x"⟩]
    ∧ ((dedupDocs [⟨"a","h","x"⟩, ⟨"b","h","y"⟩, ⟨"c","k","x"⟩]).2.map
        (fun d => d.path)).inter
        ((dedupDocs [⟨"a","h","x"⟩, ⟨"b","h","y"⟩, ⟨"c","k","x"⟩]).1.map
          (fun d => d.path)) ≠ []
    ∧ removedPaths [⟨"a","h","x"⟩, ⟨"b","h","y"⟩, ⟨"c","k","x"⟩] = [] := by
  decide

/-- C3 counterexample: on two distinct documents sharing the hash "h",
the deduplication keeps the second (last) occurrence, not the first as
the claim states. -/
theorem dedup_first_occurrence_not_kept :
    (dedupDocs [⟨"a","h","p"⟩, ⟨"b","h","p"⟩]).1 = [⟨"b","h","p"⟩]
    ∧ (dedupDocs [⟨"a","h","p"⟩, ⟨"b","h","p"⟩]).1 ≠ [⟨"a","h","p"⟩] := by
  decide

/-- C1 counterexample: `"11"` has digit characters all equal to `'1'`, so
the claim says `parse_eval_output "11"` returns `"1"`; the code instead
falls through every branch to the final generic
`raise Exception("Unexpected output ...")`. -/
theorem parse_eval_output_two_ones_unexpected :
    parse_eval_output "11" = .unexpectedError
    ∧ parse_eval_output "11" ≠ .ok "1"
    ∧ parse_eval_output "11" ≠ .invalidEval := by
  decide

/-- C1 amended: `parse_eval_output` raises
`InvalidDocEvaluationByWeakLLM` exactly when the input is empty or
whitespace-only, contains `'-'`, has no digit characters, has exactly one
digit character that is neither `'0'` nor `'1'`, or has two or more digit
characters that include both `'0'` and `'1'` or neither; it returns `"0"`
(resp. `"1"`) exactly when the input passes the empty and dash checks and
its digit characters are exactly the single character `'0'` (resp. `'1'`);
and with two or more digit characters drawn from exactly one of the two
admissible classes it raises the final generic `Exception` instead of
returning. -/
theorem parse_eval_output_characterization (s : String) :
    (parse_eval_output s = .invalidEval ↔
      (stripChars s.toList = [] ∨ '-' ∈ s.toList ∨
       s.toList.filter Char.isDigit = [] ∨
       ((s.toList.filter Char.isDigit).length = 1 ∧
        s.toList.filter Char.isDigit ≠ ['0'] ∧
        s.toList.filter Char.isDigit ≠ ['1']) ∨
       (2 ≤ (s.toList.filter Char.isDigit).length ∧
        (('0' ∈ s.toList.filter Char.isDigit ∧ '1' ∈ s.toList.filter Char.isDigit) ∨
         ('0' ∉ s.toList.filter Char.isDigit ∧ '1' ∉ s.toList.filter Char.isDigit)))))
    ∧ (parse_eval_output s = .ok "0" ↔
        (stripChars s.toList ≠ [] ∧ '-' ∉ s.toList ∧
         s.toList.filter Char.isDigit = ['0']))
    ∧ (parse_eval_output s = .ok "1" ↔
        (stripChars s.toList ≠ [] ∧ '-' ∉ s.toList ∧
         s.toList.filter Char.isDigit = ['1']))
    ∧ (parse_eval_output s = .unexpectedError ↔
        (stripChars s.toList ≠ [] ∧ '-' ∉ s.toList ∧
         2 ≤ (s.toList.filter Char.isDigit).length ∧
         (('0' ∈ s.toList.filter Char.isDigit ∧ '1' ∉ s.toList.filter Char.isDigit) ∨
          ('1' ∈ s.toList.filter Char.isDigit ∧ '0' ∉ s.toList.filter Char.isDigit)))) := by
  unfold parse_eval_output
  generalize stripChars s.toList = T
  generalize s.toList.filter Char.isDigit = D
  have hsing : ∀ c : Char, D = [c] ↔ (D.length = 1 ∧ D.headI = c) := by
    intro c
    constructor
    · rintro rfl; simp
    · rintro ⟨h1, h2⟩
      rcases List.length_eq_one.mp h1 with ⟨a, rfl⟩
      simp only [List.headI] at h2
      simp [h2]
  split_ifs with h1 h2 h3 h4 h5 h6 h7 h8
  -- branch: T = []
  · exact ⟨iff_of_true rfl (by tauto),
      iff_of_false (by decide) (by tauto),
      iff_of_false (by decide) (by tauto),
      iff_of_false (by decide) (by tauto)⟩
  -- branch: dash present
  · exact ⟨iff_of_true rfl (by tauto),
      iff_of_false (by decide) (by tauto),
      iff_of_false (by decide) (by tauto),
      iff_of_false (by decide) (by tauto)⟩
  -- branch: D = []
  · have hne0 : D ≠ ['0'] := by simp [h3]
    have hne1 : D ≠ ['1'] := by simp [h3]
    have hn2 : ¬(2 ≤ D.length) := by simp [h3]
    exact ⟨iff_of_true rfl (by tauto),
      iff_of_false (by decide) (by tauto),
      iff_of_false (by decide) (by tauto),
      iff_of_false (by decide) (by tauto)⟩
  -- branch: single digit '0'
  · have hD : D = ['0'] := (hsing '0').mpr ⟨h4, h5⟩
    have hne1 : D ≠ ['1'] := by simp [hD]
    have hn2 : ¬(2 ≤ D.length) := by omega
    exact ⟨iff_of_false (by decide) (by tauto),
      iff_of_true rfl (by tauto),
      iff_of_false (by decide) (by tauto),
      iff_of_false (by decide) (by tauto)⟩
  -- branch: single digit '1'
  · have hD : D = ['1'] := (hsing '1').mpr ⟨h4, h6⟩
    have hne0 : D ≠ ['0'] := by simp [hD]
    have hn2 : ¬(2 ≤ D.length) := by omega
    exact ⟨iff_of_false (by decide) (by tauto),
      iff_of_false (by decide) (by tauto),
      iff_of_true rfl (by tauto),
      iff_of_false (by decide) (by tauto)⟩
  -- branch: single digit, neither '0' nor '1'
  · have hne0 : D ≠ ['0'] := fun hh => h5 ((hsing '0').mp hh).2
    have hne1 : D ≠ ['1'] := fun hh => h6 ((hsing '1').mp hh).2
    have hn2 : ¬(2 ≤ D.length) := by omega
    exact ⟨iff_of_true rfl (by tauto),
      iff_of_false (by decide) (by tauto),
      iff_of_false (by decide) (by tauto),
      iff_of_false (by decide) (by tauto)⟩
  -- the remaining branches all have at least two digits
  all_goals
    have h0 : D.length ≠ 0 := by
      intro hh
      exact h3 (List.length_eq_zero.mp hh)
  all_goals
    have hlen2 : 2 ≤ D.length := by omega
  all_goals
    have hne0 : D ≠ ['0'] := by rintro rfl; simp at hlen2
  all_goals
    have hne1 : D ≠ ['1'] := by rintro rfl; simp at hlen2
  -- branch: both classes present
  · exact ⟨iff_of_true rfl (by tauto),
      iff_of_false (by decide) (by tauto),
      iff_of_false (by decide) (by tauto),
      iff_of_false (by decide) (by tauto)⟩
  -- branch: neither class present
  · exact ⟨iff_of_true rfl (by tauto),
      iff_of_false (by decide) (by tauto),
      iff_of_false (by decide) (by tauto),
      iff_of_false (by decide) (by tauto)⟩
  -- branch: exactly one class present
  · exact ⟨iff_of_false (by decide) (by tauto),
      iff_of_false (by decide) (by tauto),
      iff_of_false (by decide) (by tauto),
      iff_of_true rfl (by tauto)⟩

/-- C7: `check_intermediate_answer a` is `True` iff either `a` does not
contain the standalone word "IRRELEVANT" and `len(a) < 20`, or
`len(a) ≥ 20 = 2 * len("IRRELEVANT")`; in particular
`check_intermediate_answer "IRRELEVANT" = False` and every string of
length at least 20 is usable regardless of content. -/
theorem check_intermediate_answer_spec (a : String) :
    (check_intermediate_answer a = true ↔
      ((containsIrrelevantWord a = false ∧ a.length < 20) ∨ 20 ≤ a.length))
    ∧ check_intermediate_answer "IRRELEVANT" = false
    ∧ (20 ≤ a.length → check_intermediate_answer a = true) := by
  have h10 : ("IRRELEVANT" : String).length = 10 := rfl
  refine ⟨?_, by decide, fun h => ?_⟩
  · simp only [check_intermediate_answer, h10]
    cases hc : containsIrrelevantWord a <;> simp [hc]
  · simp only [check_intermediate_answer, h10]
    simp
    omega

/-- Witness for C7 at a concrete input: a string of length 20 that does
contain the word "IRRELEVANT" is still usable. -/
theorem check_intermediate_answer_spec_witness :
    20 ≤ ("IRRELEVANTIRRELEVANT" : String).length
    ∧ check_intermediate_answer "IRRELEVANTIRRELEVANT" = true :=
  ⟨by decide, (check_intermediate_answer_spec "IRRELEVANTIRRELEVANT").2.2 (by decide)⟩

theorem countHash_cons (d : Doc) (ds : List Doc) (h : String) :
    countHash (d :: ds) h = (if d.hash = h then 1 else 0) + countHash ds h := by
  simp only [countHash, List.filter]
  split
  all_goals simp_all [decide_eq_true_eq]
  all_goals omega

theorem countHash_eq_zero {ds : List Doc} {h : String} :
    countHash ds h = 0 ↔ ∀ d ∈ ds, d.hash ≠ h := by
  simp [countHash, List.length_eq_zero, List.filter_eq_nil_iff]

theorem countHash_pos {ds : List Doc} {h : String} :
    0 < countHash ds h ↔ ∃ d ∈ ds, d.hash = h := by
  rw [Nat.pos_iff_ne_zero, Ne, countHash_eq_zero]
  push_neg
  rfl

/-- The deduplication loop with any counter that agrees with the
occurrence counts of the hashes present in the remaining list removes
exactly the documents whose hash occurs again later. -/
theorem dedupGo_eq (ds : List Doc) :
    ∀ counter : String → Nat,
      (∀ h, (∃ d ∈ ds, d.hash = h) → counter h = countHash ds h) →
      dedupGo counter ds = (keepLast ds, removedDups ds) := by
  induction ds with
  | nil => intro counter _; rfl
  | cons d ds ih =>
    intro counter hc
    have hd : counter d.hash = countHash ds d.hash + 1 := by
      have hc2 := hc d.hash ⟨d, List.mem_cons_self d ds, rfl⟩
      rw [hc2, countHash_cons]
      rw [if_pos rfl]
      omega
    by_cases hpos : 0 < countHash ds d.hash
    · have hgt : counter d.hash > 1 := by omega
      have hrec : dedupGo (fun h => if h = d.hash then counter h - 1 else counter h) ds
          = (keepLast ds, removedDups ds) := by
        apply ih
        intro h ⟨d2, hd2, hh2⟩
        by_cases he : h = d.hash
        · subst he
          simp [hd]
        · have hc3 := hc h ⟨d2, List.mem_cons_of_mem d hd2, hh2⟩
          rw [countHash_cons] at hc3
          have hne : ¬(d.hash = h) := fun hhh => he hhh.symm
          simp [hne] at hc3
          simp [he, hc3]
      simp only [dedupGo, if_pos hgt, hrec, keepLast, removedDups, if_pos hpos]
    · have hle : ¬(counter d.hash > 1) := by omega
      have hrec : dedupGo counter ds = (keepLast ds, removedDups ds) := by
        apply ih
        intro h ⟨d2, hd2, hh2⟩
        have hc3 := hc h ⟨d2, List.mem_cons_of_mem d hd2, hh2⟩
        rw [countHash_cons] at hc3
        by_cases he : d.hash = h
        · subst he
          exfalso
          have hz : countHash ds d.hash = 0 := by omega
          exact (countHash_eq_zero.mp hz) d2 hd2 hh2
        · simp [he] at hc3
          exact hc3
      simp only [dedupGo, if_neg hle, hrec, keepLast, removedDups, if_neg hpos]

theorem dedupDocs_eq (docs : List Doc) :
    dedupDocs docs = (keepLast docs, removedDups docs) :=
  dedupGo_eq docs (countHash docs) (fun _ _ => rfl)

theorem keepLast_sublist (ds : List Doc) : List.Sublist (keepLast ds) ds := by
  induction ds with
  | nil => exact List.Sublist.refl _
  | cons d ds ih =>
    simp only [keepLast]
    split
    · exact ih.cons d
    · exact ih.cons₂ d

theorem mem_hash_keepLast (ds : List Doc) (h : String) :
    h ∈ (keepLast ds).map (fun d => d.hash) ↔ h ∈ ds.map (fun d => d.hash) := by
  induction ds with
  | nil => simp [keepLast]
  | cons d ds ih =>
    simp only [keepLast]
    split
    · rename_i hpos
      rw [ih]
      simp only [List.map_cons, List.mem_cons]
      constructor
      · exact Or.inr
      · rintro (rfl | hm)
        · rcases countHash_pos.mp hpos with ⟨d2, hd2, hh2⟩
          exact List.mem_map.mpr ⟨d2, hd2, hh2⟩
        · exact hm
    · simp only [List.map_cons, List.mem_cons, ih]

theorem keepLast_hash_nodup (ds : List Doc) :
    ((keepLast ds).map (fun d => d.hash)).Nodup := by
  induction ds with
  | nil => simp [keepLast]
  | cons d ds ih =>
    simp only [keepLast]
    split
    · exact ih
    · rename_i hneg
      simp only [List.map_cons, List.nodup_cons]
      refine ⟨?_, ih⟩
      rw [mem_hash_keepLast]
      intro hm
      rcases List.mem_map.mp hm with ⟨d2, hd2, hh2⟩
      exact absurd (countHash_pos.mpr ⟨d2, hd2, hh2⟩) hneg

theorem dedupGo_length (ds : List Doc) :
    ∀ counter, (dedupGo counter ds).1.length + (dedupGo counter ds).2.length
      = ds.length := by
  induction ds with
  | nil => intro _; rfl
  | cons d ds ih =>
    intro counter
    simp only [dedupGo]
    split
    · simp only [List.length_cons]
      have := ih (fun h => if h = d.hash then counter h - 1 else counter h)
      omega
    · simp only [List.length_cons]
      have := ih counter
      omega

/-- C3 amended: deduplication returns exactly one document per distinct
fingerprint, but for each fingerprint the occurrence kept is the LAST one
in the input (a document is removed exactly when its hash occurs again
later); the output preserves the input's relative order (it is a sublist
of the input), its hashes are duplicate-free and cover exactly the input
hashes, and the kept and removed counts partition the input count (the
removed count is what is reported). -/
theorem dedup_one_per_fingerprint_last_kept (docs : List Doc) :
    (dedupDocs docs).1 = keepLast docs
    ∧ List.Sublist (keepLast docs) docs
    ∧ ((keepLast docs).map (fun d => d.hash)).Nodup
    ∧ (∀ h, h ∈ docs.map (fun d => d.hash) ↔ h ∈ (keepLast docs).map (fun d => d.hash))
    ∧ (dedupDocs docs).1.length + (dedupDocs docs).2.length = docs.length :=
  ⟨by rw [dedupDocs_eq], keepLast_sublist docs, keepLast_hash_nodup docs,
    fun h => (mem_hash_keepLast docs h).symm, dedupGo_length docs (countHash docs)⟩

/-- C5: in `refilter_docs` the returned list consists of exactly the
documents whose evaluations pass `keepDoc`; a document whose votes are
all digit strings is kept iff the integer sum of the votes is nonzero
(votes ["1","0","0"] keep, ["0","0","0"] drop), and a document with any
non-digit vote is conservatively retained. -/
theorem refilter_vote_rule (docs : List Doc) (evals : List Evals) (filtered : List Doc)
    (hres : refilter_docs docs evals = .ok filtered) :
    filtered = ((docs.zip evals).filter (fun p => keepDoc p.2)).map Prod.fst
    ∧ (∀ e : Evals,
        ((normEvals e).all pyIsDigit = true →
          (keepDoc e = true ↔ ((normEvals e).map pyToInt).sum ≠ 0))
        ∧ ((normEvals e).all pyIsDigit = false → keepDoc e = true))
    ∧ keepDoc (.multi ["1","0","0"]) = true
    ∧ keepDoc (.multi ["0","0","0"]) = false := by
  refine ⟨?_, fun e => ⟨fun ha => ?_, fun ha => ?_⟩, by decide, by decide⟩
  · unfold refilter_docs at hres
    split_ifs at hres
    exact ((Except.ok.injEq _ _).mp hres).symm
  · simp only [keepDoc, ha, if_pos]
    simp
  · simp only [keepDoc, ha]
    simp

/-- Witness for C5 at a concrete input: two documents with votes "0" and
"1"; the second alone is returned and it equals the keep-filtered zip. -/
theorem refilter_vote_rule_witness :
    refilter_docs [⟨"a","h","p"⟩, ⟨"b","g","q"⟩] [.single "0", .single "1"]
      = .ok [⟨"b","g","q"⟩]
    ∧ [(⟨"b","g","q"⟩ : Doc)] =
        (([(⟨"a","h","p"⟩ : Doc), ⟨"b","g","q"⟩].zip
          [Evals.single "0", Evals.single "1"]).filter
            (fun p => keepDoc p.2)).map Prod.fst :=
  ⟨rfl,
   (refilter_vote_rule [⟨"a","h","p"⟩, ⟨"b","g","q"⟩] [.single "0", .single "1"]
     [⟨"b","g","q"⟩] rfl).1⟩

/-- C6: with equal-length inputs, `refilter_docs` raises
`NoDocumentsRetrieved` exactly when the unfiltered list is empty, raises
the distinct `NoDocumentsAfterWeakLLMFiltering` exactly when the input is
non-empty but vote filtering drops every document, and any list it
returns is non-empty. -/
theorem refilter_error_conditions (docs : List Doc) (evals : List Evals)
    (hlen : docs.length = evals.length) :
    (refilter_docs docs evals = .error .noDocumentsRetrieved ↔ docs = [])
    ∧ (refilter_docs docs evals = .error .noDocumentsAfterWeakLLMFiltering ↔
        (docs ≠ [] ∧
         ((docs.zip evals).filter (fun p => keepDoc p.2)).map Prod.fst = []))
    ∧ (∀ filtered, refilter_docs docs evals = .ok filtered → filtered ≠ []) := by
  unfold refilter_docs
  rw [if_neg (by omega)]
  by_cases h2 : docs = []
  · rw [if_pos h2]
    refine ⟨by simp [h2], ?_, by simp⟩
    constructor
    · intro hh
      cases hh
    · rintro ⟨hne, _⟩
      exact absurd h2 hne
  · rw [if_neg h2]
    by_cases h3 : ((docs.zip evals).filter (fun p => keepDoc p.2)).map Prod.fst = []
    · rw [if_pos h3]
      refine ⟨by simp [h2], by simp [h2, h3], by simp⟩
    · rw [if_neg h3]
      refine ⟨by simp [h2], by simp [h3], ?_⟩
      intro filtered hf
      cases hf
      exact h3

/-- Witness for C6 at concrete inputs: the empty input raises the
empty-retrieval error, and an all-"0"-voted input raises the
post-filtering error. -/
theorem refilter_error_conditions_witness :
    refilter_docs [] [] = .error .noDocumentsRetrieved
    ∧ refilter_docs [⟨"a","h","p"⟩] [.single "0"]
        = .error .noDocumentsAfterWeakLLMFiltering :=
  ⟨(refilter_error_conditions [] [] rfl).1.mpr rfl,
   (refilter_error_conditions [⟨"a","h","p"⟩] [.single "0"] rfl).2.1.mpr
     ⟨by decide, by decide⟩⟩

/-- C10: any list returned by `refilter_docs` is an order-preserving
sublist of the unfiltered input: each output element is an input element,
taken at most once per input position, in the input's relative order,
with no document modified, duplicated, or created. -/
theorem refilter_output_sublist (docs : List Doc) (evals : List Evals)
    (filtered : List Doc) (hlen : docs.length = evals.length)
    (hres : refilter_docs docs evals = .ok filtered) :
    List.Sublist filtered docs := by
  unfold refilter_docs at hres
  split_ifs at hres
  have hfe : filtered = ((docs.zip evals).filter (fun p => keepDoc p.2)).map Prod.fst :=
    ((Except.ok.injEq _ _).mp hres).symm
  rw [hfe]
  have h1 : List.Sublist ((docs.zip evals).filter (fun p => keepDoc p.2)) (docs.zip evals) :=
    List.filter_sublist _
  have h2 := h1.map Prod.fst
  rwa [List.map_fst_zip docs evals (by omega)] at h2

/-- Witness for C10 at a concrete input: with votes "0" and "1" the
output [b] is a sublist of the input [a, b]. -/
theorem refilter_output_sublist_witness :
    refilter_docs [⟨"a","h","p"⟩, ⟨"b","g","q"⟩] [.single "0", .single "1"]
      = .ok [⟨"b","g","q"⟩]
    ∧ List.Sublist [(⟨"b","g","q"⟩ : Doc)] [⟨"a","h","p"⟩, ⟨"b","g","q"⟩] :=
  ⟨rfl,
   refilter_output_sublist [⟨"a","h","p"⟩, ⟨"b","g","q"⟩] [.single "0", .single "1"]
     [⟨"b","g","q"⟩] rfl rfl⟩

theorem addToBatches_join (l : List String) :
    ∀ (acc : List (List String)) (cur : List String),
      (addToBatches acc cur l).flatten
        = acc.flatten ++ cur ++ l.filter check_intermediate_answer := by
  induction l with
  | nil => intro acc cur; simp [addToBatches]
  | cons ia rest ih =>
    intro acc cur
    simp only [addToBatches]
    by_cases hc : check_intermediate_answer ia
    · rw [if_pos hc]
      by_cases hf : cur.length ≥ 5
      · rw [if_pos hf, ih]
        simp [List.filter_cons, hc]
      · rw [if_neg hf, ih]
        simp [List.filter_cons, hc]
    · rw [if_neg hc, ih]
      simp only [List.filter_cons]
      rw [if_neg (by simpa using hc)]

theorem addToBatches_sizes (l : List String) :
    ∀ (acc : List (List String)) (cur : List String),
      (∀ b ∈ acc, b.length ≤ 5) → cur.length ≤ 5 →
      ∀ b ∈ addToBatches acc cur l, b.length ≤ 5 := by
  induction l with
  | nil =>
    intro acc cur hacc hcur b hb
    simp only [addToBatches, List.mem_append, List.mem_singleton] at hb
    rcases hb with hb | rfl
    · exact hacc b hb
    · exact hcur
  | cons ia rest ih =>
    intro acc cur hacc hcur b hb
    simp only [addToBatches] at hb
    by_cases hc : check_intermediate_answer ia
    · rw [if_pos hc] at hb
      by_cases hf : cur.length ≥ 5
      · rw [if_pos hf] at hb
        refine ih _ _ ?_ (by simp) b hb
        intro b2 hb2
        simp only [List.mem_append, List.mem_singleton] at hb2
        rcases hb2 with hb2 | rfl
        · exact hacc b2 hb2
        · exact hcur
      · rw [if_neg hf] at hb
        refine ih _ _ hacc ?_ b hb
        simp only [List.length_append, List.length_singleton]
        omega
    · rw [if_neg hc] at hb
      exact ih _ _ hacc hcur b hb

theorem mkBatches_twelve (a1 a2 a3 a4 a5 a6 a7 a8 a9 a10 a11 a12 : String)
    (h1 : check_intermediate_answer a1 = true)
    (h2 : check_intermediate_answer a2 = true)
    (h3 : check_intermediate_answer a3 = true)
    (h4 : check_intermediate_answer a4 = true)
    (h5 : check_intermediate_answer a5 = true)
    (h6 : check_intermediate_answer a6 = true)
    (h7 : check_intermediate_answer a7 = true)
    (h8 : check_intermediate_answer a8 = true)
    (h9 : check_intermediate_answer a9 = true)
    (h10 : check_intermediate_answer a10 = true)
    (h11 : check_intermediate_answer a11 = true)
    (h12 : check_intermediate_answer a12 = true) :
    mkBatches [a1,a2,a3,a4,a5,a6,a7,a8,a9,a10,a11,a12]
      = [[a1,a2,a3,a4,a5],[a6,a7,a8,a9,a10],[a11,a12]] := by
  simp [mkBatches, addToBatches, h1,h2,h3,h4,h5,h6,h7,h8,h9,h10,h11,h12]

/-- C8: twelve all-usable intermediate answers are partitioned in order
into exactly three batches of sizes 5, 5, 2; the reduction loop makes one
reduction call per batch (3 calls) and exits, and the subsequent single
final reduction over the 3 batch outputs brings the total to 4 calls.
In general every batch formed has size at most 5 and the batches
partition the usable answers in input order. -/
theorem hierarchical_reduction_twelve (reduce : List String → String)
    (ans : List String) (f : Nat) (hlen : ans.length = 12)
    (hall : ∀ a ∈ ans, check_intermediate_answer a = true) :
    ((mkBatches ans).map List.length = [5, 5, 2]
     ∧ (mkBatches ans).flatten = ans
     ∧ reduceLoop reduce (f + 2) ans = ((mkBatches ans).map reduce, 3)
     ∧ runReduction reduce (f + 2) ans
         = (reduce ((mkBatches ans).map reduce), 4))
    ∧ (∀ l : List String,
        (mkBatches l).flatten = l.filter check_intermediate_answer
        ∧ ∀ b ∈ mkBatches l, b.length ≤ 5) := by
  refine ⟨?_, fun l => ⟨by simpa using addToBatches_join l [] [],
    fun b hb => addToBatches_sizes l [] [] (by simp) (by simp) b hb⟩⟩
  rcases ans with _ | ⟨a1, _ | ⟨a2, _ | ⟨a3, _ | ⟨a4, _ | ⟨a5, _ | ⟨a6, _ | ⟨a7,
    _ | ⟨a8, _ | ⟨a9, _ | ⟨a10, _ | ⟨a11, _ | ⟨a12, _ | ⟨a13, tl⟩⟩⟩⟩⟩⟩⟩⟩⟩⟩⟩⟩⟩ <;>
    simp only [List.length_cons, List.length_nil] at hlen
  pick_goal 13
  · have h1 := hall a1 (by simp)
    have h2 := hall a2 (by simp)
    have h3 := hall a3 (by simp)
    have h4 := hall a4 (by simp)
    have h5 := hall a5 (by simp)
    have h6 := hall a6 (by simp)
    have h7 := hall a7 (by simp)
    have h8 := hall a8 (by simp)
    have h9 := hall a9 (by simp)
    have h10 := hall a10 (by simp)
    have h11 := hall a11 (by simp)
    have h12 := hall a12 (by simp)
    have hmb := mkBatches_twelve a1 a2 a3 a4 a5 a6 a7 a8 a9 a10 a11 a12
      h1 h2 h3 h4 h5 h6 h7 h8 h9 h10 h11 h12
    rw [hmb]
    refine ⟨rfl, rfl, ?_, ?_⟩
    · simp only [reduceLoop, hmb]
      norm_num
    · simp only [runReduction, reduceLoop, hmb]
      norm_num
  all_goals omega

/-- Witness for C8: twelve copies of a 20-character answer form batches
of sizes 5, 5, 2, and the loop performs exactly 3 reduction calls. -/
theorem hierarchical_reduction_twelve_witness :
    (mkBatches (List.replicate 12 "aaaaaaaaaaaaaaaaaaaa")).map List.length = [5, 5, 2]
    ∧ reduceLoop (fun _ => "") 2 (List.replicate 12 "aaaaaaaaaaaaaaaaaaaa")
        = ((mkBatches (List.replicate 12 "aaaaaaaaaaaaaaaaaaaa")).map (fun _ => ""), 3) :=
  ⟨(hierarchical_reduction_twelve (fun _ => "") _ 0 (by decide) (by decide)).1.1,
   (hierarchical_reduction_twelve (fun _ => "") _ 0 (by decide) (by decide)).1.2.2.1⟩

theorem splitNl_ne_nil (cs : List Char) : splitNl cs ≠ [] := by
  induction cs with
  | nil => simp [splitNl]
  | cons c cs ih =>
    simp only [splitNl]
    split
    · simp
    · cases h : splitNl cs with
      | nil => simp
      | cons l ls => simp

theorem mem_splitNl_no_newline (cs : List Char) :
    ∀ l ∈ splitNl cs, '\n' ∉ l := by
  induction cs with
  | nil => intro l hl; simp [splitNl] at hl; simp [hl]
  | cons c cs ih =>
    intro l hl
    simp only [splitNl] at hl
    by_cases hc : c = '\n'
    · rw [if_pos hc] at hl
      rcases List.mem_cons.mp hl with rfl | hm
      · simp
      · exact ih l hm
    · rw [if_neg hc] at hl
      cases h : splitNl cs with
      | nil => exact absurd h (splitNl_ne_nil cs)
      | cons l2 ls =>
        rw [h] at hl
        rcases List.mem_cons.mp hl with rfl | hm
        · intro hmem
          rcases List.mem_cons.mp hmem with heq | hmem2
          · exact hc heq.symm
          · exact ih l2 (h ▸ List.mem_cons_self l2 ls) hmem2
        · exact ih l (h ▸ List.mem_cons_of_mem l2 hm)

theorem splitNl_of_no_newline (l : List Char) (hnl : '\n' ∉ l) :
    splitNl l = [l] := by
  induction l with
  | nil => rfl
  | cons c cs ih =>
    have hc : c ≠ '\n' := fun hh => hnl (hh ▸ List.mem_cons_self c cs)
    have hcs : '\n' ∉ cs := fun hh => hnl (List.mem_cons_of_mem c hh)
    simp only [splitNl, if_neg hc, ih hcs]

theorem splitNl_append_newline (l rest : List Char) (hnl : '\n' ∉ l) :
    splitNl (l ++ '\n' :: rest) = l :: splitNl rest := by
  induction l with
  | nil => simp [splitNl]
  | cons c cs ih =>
    have hc : c ≠ '\n' := fun hh => hnl (hh ▸ List.mem_cons_self c cs)
    have hcs : '\n' ∉ cs := fun hh => hnl (List.mem_cons_of_mem c hh)
    simp only [List.cons_append, splitNl, if_neg hc, List.append_eq, ih hcs]

theorem splitNl_joinNl (ls : List (List Char)) (hne : ls ≠ [])
    (hnl : ∀ l ∈ ls, '\n' ∉ l) : splitNl (joinNl ls) = ls := by
  induction ls with
  | nil => exact absurd rfl hne
  | cons l ls ih =>
    cases ls with
    | nil =>
      simp only [joinNl]
      exact splitNl_of_no_newline l (hnl l (List.mem_cons_self l []))
    | cons l2 ls2 =>
      have hl : '\n' ∉ l := hnl l (List.mem_cons_self _ _)
      have hj : joinNl (l :: l2 :: ls2) = l ++ '\n' :: joinNl (l2 :: ls2) := rfl
      rw [hj, splitNl_append_newline l _ hl,
        ih (by simp) (fun x hx => hnl x (List.mem_cons_of_mem l hx))]

theorem dropWhile_idem (p : Char → Bool) (l : List Char) :
    (l.dropWhile p).dropWhile p = l.dropWhile p := by
  induction l with
  | nil => rfl
  | cons c cs ih =>
    by_cases hc : p c
    · simp only [List.dropWhile_cons, hc, if_true, ih]
    · simp only [List.dropWhile_cons]
      simp [hc]

theorem rstrip_idem (l : List Char) :
    rstripChars (rstripChars l) = rstripChars l := by
  simp only [rstripChars, List.reverse_reverse, dropWhile_idem]

theorem mem_rstrip {x : Char} {l : List Char} (hx : x ∈ rstripChars l) : x ∈ l := by
  simp only [rstripChars, List.mem_reverse] at hx
  exact List.mem_reverse.mp ((List.dropWhile_sublist _).mem hx)

theorem strip_rstrip (l : List Char) :
    stripChars (rstripChars l) = stripChars l := by
  simp only [stripChars, rstrip_idem]

/-- Right-stripping only removes a (whitespace) suffix. -/
theorem rstrip_append (l : List Char) :
    l = rstripChars l ++ (l.reverse.takeWhile Char.isWhitespace).reverse := by
  conv_lhs => rw [← List.reverse_reverse l,
    ← List.takeWhile_append_dropWhile (p := Char.isWhitespace) (l := l.reverse)]
  rw [List.reverse_append]
  rfl

theorem takeWhile_ne_nil_append (p : Char → Bool) (l b : List Char)
    (h : l.takeWhile p ≠ []) : (l ++ b).takeWhile p ≠ [] := by
  cases l with
  | nil => simp at h
  | cons c cs =>
    simp only [List.takeWhile_cons] at h ⊢
    by_cases hc : p c
    · simp [hc]
    · simp [hc] at h

theorem dropWhile_append_ne_nil (p : Char → Bool) (l b : List Char)
    (h : l.dropWhile p ≠ []) : (l ++ b).dropWhile p = l.dropWhile p ++ b := by
  induction l with
  | nil => simp at h
  | cons c cs ih =>
    simp only [List.cons_append, List.dropWhile_cons] at h ⊢
    by_cases hc : p c
    · simp only [hc, if_true] at h ⊢
      exact ih h
    · simp [hc]

theorem chunkSlashTail_ne_nil (x : List Char) (h : chunkSlashTail x = true) :
    x ≠ [] := by
  intro hx
  subst hx
  simp [chunkSlashTail] at h

theorem chunkSlashTail_append (x b : List Char) (h : chunkSlashTail x = true) :
    chunkSlashTail (x ++ b) = true := by
  cases x with
  | nil => simp [chunkSlashTail] at h
  | cons c r =>
    simp only [chunkSlashTail, Bool.and_eq_true, List.isEmpty_iff] at h
    rcases h with ⟨hc, hr⟩
    have h3 := takeWhile_ne_nil_append Char.isDigit r b (by simpa using hr)
    simp only [List.cons_append, chunkSlashTail, Bool.and_eq_true, List.isEmpty_iff]
    exact ⟨hc, by simpa using h3⟩

theorem chunkNumTail_append (rest b : List Char) (h : chunkNumTail rest = true) :
    chunkNumTail (rest ++ b) = true := by
  simp only [chunkNumTail, Bool.and_eq_true, List.isEmpty_iff] at h ⊢
  rcases h with ⟨hds, hslash⟩
  have hdne : rest.dropWhile Char.isDigit ≠ [] := chunkSlashTail_ne_nil _ hslash
  refine ⟨?_, ?_⟩
  · exact (by simpa using takeWhile_ne_nil_append Char.isDigit rest b (by simpa using hds))
  · rw [dropWhile_append_ne_nil Char.isDigit rest b hdne]
    exact chunkSlashTail_append _ b hslash

/-- Extending a line to the right cannot destroy a chunk-marker match at
its head (the regex has no anchor after the final digits). -/
theorem matchChunkAt_append (a b : List Char) (h : matchChunkAt a = true) :
    matchChunkAt (a ++ b) = true := by
  simp only [matchChunkAt, Bool.and_eq_true] at h ⊢
  rcases h with ⟨hpre, hrest⟩
  rcases List.isPrefixOf_iff_prefix.mp hpre with ⟨r, hr⟩
  subst hr
  have hdrop : (("- Chunk ".toList ++ r)).drop ("- Chunk ".toList.length) = r :=
    List.drop_left _ _
  rw [hdrop] at hrest
  have hdrop2 : (("- Chunk ".toList ++ r) ++ b).drop ("- Chunk ".toList.length)
      = r ++ b := by
    rw [List.append_assoc]
    exact List.drop_left _ _
  rw [hdrop2]
  exact ⟨List.isPrefixOf_iff_prefix.mpr ⟨r ++ b, by simp⟩, chunkNumTail_append r b hrest⟩

theorem containsChunkMarker_append (a b : List Char)
    (h : containsChunkMarker a = true) : containsChunkMarker (a ++ b) = true := by
  induction a with
  | nil => simp [containsChunkMarker] at h
  | cons c cs ih =>
    simp only [containsChunkMarker, Bool.or_eq_true] at h
    simp only [List.cons_append, containsChunkMarker, Bool.or_eq_true]
    rcases h with h | h
    · exact Or.inl (by simpa using matchChunkAt_append (c :: cs) b h)
    · exact Or.inr (ih h)

/-- Right-stripping a line cannot create a chunk-marker match. -/
theorem containsChunkMarker_rstrip (l : List Char)
    (h : containsChunkMarker (rstripChars l) = true) :
    containsChunkMarker l = true := by
  conv_lhs => rw [rstrip_append l]
  exact containsChunkMarker_append _ _ h

theorem cleanLines_survivors (ls : List (List Char)) :
    ∀ l ∈ cleanLines ls,
      stripChars l ≠ sepLit ∧ containsChunkMarker l = false
      ∧ recMark.isPrefixOf (stripChars l) = false := by
  induction ls with
  | nil => intro l hl; simp [cleanLines] at hl
  | cons x ls ih =>
    intro l hl
    simp only [cleanLines] at hl
    split at hl
    · exact ih l hl
    · split at hl
      · exact ih l hl
      · split at hl
        · simp at hl
        · rcases List.mem_cons.mp hl with rfl | hm
          · rename_i h1 h2 h3
            exact ⟨h1, Bool.eq_false_iff.mpr h2, Bool.eq_false_iff.mpr h3⟩
          · exact ih l hm

theorem cleanLines_mem (ls : List (List Char)) :
    ∀ l ∈ cleanLines ls, l ∈ ls := by
  induction ls with
  | nil => intro l hl; simp [cleanLines] at hl
  | cons x ls ih =>
    intro l hl
    simp only [cleanLines] at hl
    split at hl
    · exact List.mem_cons_of_mem x (ih l hl)
    · split at hl
      · exact List.mem_cons_of_mem x (ih l hl)
      · split at hl
        · simp at hl
        · rcases List.mem_cons.mp hl with rfl | hm
          · exact List.mem_cons_self _ _
          · exact List.mem_cons_of_mem x (ih l hm)

theorem cleanLines_of_survivors (ls : List (List Char))
    (h : ∀ l ∈ ls,
      stripChars l ≠ sepLit ∧ containsChunkMarker l = false
      ∧ recMark.isPrefixOf (stripChars l) = false) :
    cleanLines ls = ls := by
  induction ls with
  | nil => rfl
  | cons x ls ih =>
    rcases h x (List.mem_cons_self _ _) with ⟨h1, h2, h3⟩
    simp only [cleanLines, if_neg h1]
    rw [if_neg (by simp [h2]), if_neg (by simp [h3]),
      ih (fun l hl => h l (List.mem_cons_of_mem x hl))]

/-- Every line of a cleanup pass's output is right-stripped, fails all
three removal conditions, and (for newline-free input lines) is
newline-free. -/
theorem cleanupPass_elem_props (ls : List (List Char))
    (hnl : ∀ l ∈ ls, '\n' ∉ l) :
    ∀ x ∈ cleanupPass ls,
      rstripChars x = x ∧ stripChars x ≠ sepLit
      ∧ containsChunkMarker x = false
      ∧ recMark.isPrefixOf (stripChars x) = false ∧ '\n' ∉ x := by
  intro x hx
  simp only [cleanupPass, List.mem_map, List.mem_filter] at hx
  rcases hx with ⟨l, ⟨hlm, _⟩, rfl⟩
  rcases cleanLines_survivors ls l hlm with ⟨h1, h2, h3⟩
  refine ⟨rstrip_idem l, ?_, ?_, ?_, ?_⟩
  · rw [strip_rstrip]; exact h1
  · cases hcc : containsChunkMarker (rstripChars l) with
    | false => rfl
    | true => exact absurd (containsChunkMarker_rstrip l hcc) (by simp [h2])
  · rw [strip_rstrip]; exact h3
  · intro hmem
    exact hnl l (cleanLines_mem ls l hlm) (mem_rstrip hmem)

/-- On a line list whose lines already satisfy the output properties, a
cleanup pass only drops the empty lines. -/
theorem cleanupPass_of_stable (X : List (List Char))
    (h : ∀ x ∈ X,
      rstripChars x = x ∧ stripChars x ≠ sepLit
      ∧ containsChunkMarker x = false
      ∧ recMark.isPrefixOf (stripChars x) = false ∧ '\n' ∉ x) :
    cleanupPass X = X.filter (fun l => !l.isEmpty) := by
  have hcl : cleanLines X = X :=
    cleanLines_of_survivors X (fun l hl => ⟨(h l hl).2.1, (h l hl).2.2.1, (h l hl).2.2.2.1⟩)
  simp only [cleanupPass, hcl]
  have hid : ∀ x ∈ X.filter (fun l => !l.isEmpty), rstripChars x = x :=
    fun x hx => (h x (List.mem_filter.mp hx).1).1
  calc (X.filter (fun l => !l.isEmpty)).map rstripChars
      = (X.filter (fun l => !l.isEmpty)).map id := List.map_congr_left hid
    _ = X.filter (fun l => !l.isEmpty) := List.map_id _

theorem cleanup_mk_of_stable (X : List (List Char))
    (h : ∀ x ∈ X,
      rstripChars x = x ∧ stripChars x ≠ sepLit
      ∧ containsChunkMarker x = false
      ∧ recMark.isPrefixOf (stripChars x) = false ∧ '\n' ∉ x) :
    recursive_cleanup (String.mk (joinNl X))
      = String.mk (joinNl (X.filter (fun l => !l.isEmpty))) := by
  cases hX : X with
  | nil => rfl
  | cons x xs =>
    have hne : X ≠ [] := by simp [hX]
    rw [← hX]
    have hstep : recursive_cleanup (String.mk (joinNl X))
        = String.mk (joinNl (cleanupPass (splitNl (joinNl X)))) := rfl
    rw [hstep, splitNl_joinNl X hne (fun l hl => (h l hl).2.2.2.2),
      cleanupPass_of_stable X h]

/-- C4 amended: the marker-stripping cleanup is NOT idempotent in general
(see the counterexample), but it stabilizes after two applications: for
every input text, a third application changes nothing. -/
theorem recursive_cleanup_stabilizes (t : String) :
    recursive_cleanup (recursive_cleanup (recursive_cleanup t))
      = recursive_cleanup (recursive_cleanup t) := by
  have h1 : recursive_cleanup t
      = String.mk (joinNl (cleanupPass (splitNl t.toList))) := rfl
  have hprops := cleanupPass_elem_props (splitNl t.toList)
    (mem_splitNl_no_newline t.toList)
  have hprops2 : ∀ x ∈ (cleanupPass (splitNl t.toList)).filter (fun l => !l.isEmpty),
      rstripChars x = x ∧ stripChars x ≠ sepLit
      ∧ containsChunkMarker x = false
      ∧ recMark.isPrefixOf (stripChars x) = false ∧ '\n' ∉ x :=
    fun x hx => hprops x (List.mem_filter.mp hx).1
  have e1 : recursive_cleanup (recursive_cleanup t)
      = String.mk (joinNl ((cleanupPass (splitNl t.toList)).filter
          (fun l => !l.isEmpty))) := by
    rw [h1, cleanup_mk_of_stable _ hprops]
  rw [e1, cleanup_mk_of_stable _ hprops2,
    List.filter_eq_self.mpr (fun a ha => (List.mem_filter.mp ha).2)]

/-- C4 counterexample: the cleanup is not idempotent. On "a\n \nb" the
first pass keeps the whitespace-only middle line but right-strips it to
an empty line; the second pass then deletes that empty line, giving a
different text. -/
theorem recursive_cleanup_not_idempotent :
    recursive_cleanup (recursive_cleanup "a\n \nb") ≠ recursive_cleanup "a\n \nb"
    ∧ recursive_cleanup "a\n \nb" = "a\n\nb"
    ∧ recursive_cleanup "a\n\nb" = "a\nb" := by
  refine ⟨?_, by decide, by decide⟩
  decide

end Wdoc
